import Mathlib

/-!
Verification development for the dotfiles-manager tree walkers.

The Rust sources (src/builder.rs, src/linker.rs, src/peeker.rs,
src/error.rs, src/main.rs) are shallowly embedded below.  Filesystem
paths are modelled as an absolute/relative flag plus a list of raw
segments; the asynchronous walkers are modelled as pure recursive
functions over an explicit tree describing the filesystem, returning
both the value the Rust function returns (located errors) and the side
effects it performs (files written / links created).  The external
template engine (the blueprint crate) and the toml parser are external
collaborators and are modelled abstractly.
-/

/-- A filesystem path: an absolute flag plus raw `/`-separated segments
(the segments may contain `"."`, `".."` or `""` exactly as the textual
path does; normalisation happens in `MPath.iterComponents`, mirroring
Rust's `Path::components`). -/
structure MPath where
  abs : Bool
  segs : List String
deriving DecidableEq, Repr

/-- `Path::join` with a purely relative path given as a segment list. -/
def MPath.joinRel (p : MPath) (rel : List String) : MPath :=
  ⟨p.abs, p.segs ++ rel⟩

/-- A segment survives `Path::components` normalisation if it is neither
empty nor the `"."` segment (except for a leading `"."`, handled in
`MPath.iterComponents`). -/
def keepSeg (s : String) : Bool :=
  s ≠ "" && s ≠ "."

/-- Rust `Path::iter`: the component strings of the path.  An absolute
path contributes a leading `"/"`; repeated separators and `"."` segments
are normalised away except a `"."` at the very beginning of a relative
path. -/
def MPath.iterComponents (p : MPath) : List String :=
  if p.abs then
    "/" :: p.segs.filter keepSeg
  else
    match p.segs with
    | [] => []
    | s :: rest =>
      if s = "." then "." :: rest.filter keepSeg
      else (s :: rest).filter keepSeg

/-- Split a character list at its last `'.'`: returns the characters
before and after that dot, or `none` when there is no dot. -/
def splitLastDot : List Char → Option (List Char × List Char)
  | [] => none
  | c :: rest =>
    match splitLastDot rest with
    | some (s, e) => some (c :: s, e)
    | none => if c = '.' then some ([], rest) else none

/-- Rust `Path::extension` restricted to a single file name: the part
after the last dot, or `none` when there is no dot or when the only dot
is the leading character (hidden files such as `.bashrc`). -/
def extName (name : String) : Option String :=
  match splitLastDot name.data with
  | some (s, e) => if s = [] then none else some (String.mk e)
  | none => none

/-- Rust `PathBuf::set_extension("")` restricted to a single file name:
drop the extension (and its dot) when there is one. -/
def dropExtName (name : String) : String :=
  match splitLastDot name.data with
  | some (s, _) => if s = [] then name else String.mk s
  | none => name

/-- Rust `Path::extension` of a full path: the extension of its final
segment. -/
def MPath.extension (p : MPath) : Option String :=
  match p.segs.getLast? with
  | none => none
  | some s => extName s

/-- Rust `PathBuf::set_extension("")` on a full path: strip the
extension of its final segment. -/
def MPath.setExtEmpty (p : MPath) : MPath :=
  ⟨p.abs, p.segs.dropLast ++ (match p.segs.getLast? with
    | none => []
    | some s => [dropExtName s])⟩

/-- Strip the extension of the last segment of a relative path given as
a segment list (the destination path of a rendered template). -/
def stripLastSeg (rel : List String) : List String :=
  rel.dropLast ++ (match rel.getLast? with
    | none => []
    | some s => [dropExtName s])

/-- The parent directory of a path (drop the final segment). -/
def MPath.parentDir (p : MPath) : MPath :=
  ⟨p.abs, p.segs.dropLast⟩

/-- Normalise a segment list by resolving `"."`, `""` and `".."`
segments (used to state what a symlink target resolves to). -/
def normSegs (segs : List String) : List String :=
  segs.foldl (fun acc s =>
    if s = "." ∨ s = "" then acc
    else if s = ".." then acc.dropLast
    else acc ++ [s]) []

/-- Resolve a symlink target against the directory containing the link:
an absolute target stands alone, a relative one is appended to the
directory and normalised. -/
def resolveTarget (dir : MPath) (target : MPath) : MPath :=
  if target.abs then target
  else ⟨dir.abs, normSegs (dir.segs ++ target.segs)⟩

/-- A template value: the blueprint crate's `Value` (string or boolean),
as used in src/builder.rs. -/
inductive Value where
  | str : String → Value
  | bool : Bool → Value
deriving DecidableEq, Repr

/-- The binding environment `blueprint::Env`, modelled as an
insertion-ordered association list where `envInsert` shadows earlier
bindings (the most recent insertion wins on lookup, matching map
insertion semantics). -/
abbrev Env := List (String × Value)

/-- Insert a binding; the new binding shadows any earlier one for the
same key. -/
def envInsert (e : Env) (k : String) (v : Value) : Env :=
  (k, v) :: e

/-- Effective binding of a key: the most recently inserted value. -/
def envLookup (e : Env) (k : String) : Option Value :=
  match e with
  | [] => none
  | (k', v) :: rest => if k' = k then some v else envLookup rest k

/-- A parsed template, as the builder and peeker consume it: the list of
variable names `list_variables` reports, and the rendering function
`write` producing output bytes from an environment (or a render
error). -/
structure Template where
  vars : List String
  render : Env → Except Unit (List Nat)

/-- The external template engine (the blueprint crate's
`parse_template`). -/
structure Engine where
  parse : String → Except Unit Template

/-- Is `b` a UTF-8 continuation byte (0x80..=0xBF)? -/
def isCont (b : Nat) : Bool :=
  128 ≤ b && b ≤ 191

/-- UTF-8 validity of a byte sequence (the check `std::str::from_utf8`
performs). -/
def isValidUtf8 : List Nat → Bool
  | [] => true
  | b :: rest =>
    if b ≤ 127 then isValidUtf8 rest
    else if 194 ≤ b && b ≤ 223 then
      match rest with
      | b1 :: rest' => isCont b1 && isValidUtf8 rest'
      | [] => false
    else if b = 224 then
      match rest with
      | b1 :: b2 :: rest' => (160 ≤ b1 && b1 ≤ 191) && isCont b2 && isValidUtf8 rest'
      | _ => false
    else if (225 ≤ b && b ≤ 236) || b = 238 || b = 239 then
      match rest with
      | b1 :: b2 :: rest' => isCont b1 && isCont b2 && isValidUtf8 rest'
      | _ => false
    else if b = 237 then
      match rest with
      | b1 :: b2 :: rest' => (128 ≤ b1 && b1 ≤ 159) && isCont b2 && isValidUtf8 rest'
      | _ => false
    else if b = 240 then
      match rest with
      | b1 :: b2 :: b3 :: rest' =>
        (144 ≤ b1 && b1 ≤ 191) && isCont b2 && isCont b3 && isValidUtf8 rest'
      | _ => false
    else if 241 ≤ b && b ≤ 243 then
      match rest with
      | b1 :: b2 :: b3 :: rest' => isCont b1 && isCont b2 && isCont b3 && isValidUtf8 rest'
      | _ => false
    else if b = 244 then
      match rest with
      | b1 :: b2 :: b3 :: rest' =>
        (128 ≤ b1 && b1 ≤ 143) && isCont b2 && isCont b3 && isValidUtf8 rest'
      | _ => false
    else false

/-- Located error kind, from `InnerError` in src/error.rs (`Io`,
`Template`, `Toml`, `Type`). -/
inductive EKind where
  | io : EKind
  | template : EKind
  | toml : EKind
  | typeErr : EKind
deriving DecidableEq, Repr

/-- A located error: the path it concerns plus the failure kind
(`Error` in src/error.rs). -/
abbrev LErr := MPath × EKind

/-- A file successfully written to the build tree: its relative path
and its content bytes. -/
abbrev Written := List String × List Nat

/-- A symlink successfully created in the link tree: its relative path
and its target. -/
abbrev Link := List String × MPath

/-- The run configuration (`Config` in src/main.rs). -/
structure Config where
  template_dir : MPath
  build_dir : MPath
  link_dir : MPath
  variables_path : MPath
  flags : List String

/-- Outcome flags and content of a regular file in the template tree,
describing how each filesystem operation of the builder's file action
would fare on it. -/
structure TFile where
  readable : Bool
  text : String
  raw : List Nat
  metaOk : Bool
  createOk : Bool
  writeOk : Bool
  setPermsOk : Bool
  copyOk : Bool

/-- Outcome flags of a regular file in the build tree, for the linker's
file action. -/
structure LFile where
  removeOk : Bool
  symlinkOk : Bool

mutual
/-- A directory tree on disk: a regular file, an entry that is neither
file nor directory, or a directory with a destination-create outcome
flag, a listability flag and its entries. -/
inductive FTree (α : Type) where
  | file : α → FTree α
  | other : FTree α
  | node : Bool → Bool → FEntries α → FTree α
/-- The named entries of a directory, in listing order. -/
inductive FEntries (α : Type) where
  | nil : FEntries α
  | cons : String → FTree α → FEntries α → FEntries α
end

/-- The builder's per-file action (`file` in src/builder.rs): render a
template-suffixed file and write it with the suffix stripped, or
byte-copy any other file.  `none` models a panic (the
`from_utf8(..).unwrap()` on the rendered bytes); `some (.error e)` a
located error; `some (.ok w)` the file written. -/
def fileB (eng : Engine) (env : Env) (cfg : Config) (f : TFile) (rel : List String) :
    Option (Except LErr Written) :=
  let template_path := cfg.template_dir.joinRel rel
  let new_path := cfg.build_dir.joinRel rel
  if template_path.extension = some "tpl" then
    if f.readable = false then some (.error (template_path, .io))
    else if f.metaOk = false then some (.error (template_path, .io))
    else
      match eng.parse f.text with
      | .error _ => some (.error (template_path, .template))
      | .ok tpl =>
        match tpl.render env with
        | .error _ => some (.error (template_path, .template))
        | .ok rendered =>
          if isValidUtf8 rendered = false then none
          else
            let out_path := new_path.setExtEmpty
            if f.createOk = false then some (.error (out_path, .io))
            else if f.writeOk = false then some (.error (out_path, .io))
            else if f.setPermsOk = false then some (.error (out_path, .io))
            else some (.ok (stripLastSeg rel, rendered))
  else
    if f.copyOk = false then some (.error (template_path, .io))
    else some (.ok (rel, f.raw))

mutual
/-- The builder's directory walker (`dir` in src/builder.rs): create the
destination directory, list the source directory, process files and
subdirectories, and merge all errors (file errors first, then each
subdirectory's error collection, in listing order) and all files
written. -/
def dirB (eng : Engine) (env : Env) (cfg : Config) :
    FTree TFile → List String → Option (List LErr × List Written)
  | .file _, _ => some ([], [])
  | .other, _ => some ([], [])
  | .node createOk listable entries, rel =>
    let template_path := cfg.template_dir.joinRel rel
    let build_path := cfg.build_dir.joinRel rel
    if createOk = false then some ([(build_path, .io)], [])
    else if listable = false then some ([(template_path, .io)], [])
    else
      match entsB eng env cfg entries rel with
      | none => none
      | some (fe, de, w) => some (fe ++ de, w)

/-- Process the entries of one directory for the builder: collect file
action errors, concatenated subdirectory error collections, and all
files written (each in listing order). -/
def entsB (eng : Engine) (env : Env) (cfg : Config) :
    FEntries TFile → List String → Option (List LErr × List LErr × List Written)
  | .nil, _ => some ([], [], [])
  | .cons name child rest, rel =>
    match child with
    | .file f =>
      match fileB eng env cfg f (rel ++ [name]), entsB eng env cfg rest rel with
      | none, _ => none
      | some _, none => none
      | some (.error e), some (fe, de, w) => some (e :: fe, de, w)
      | some (.ok wr), some (fe, de, w) => some (fe, de, wr :: w)
    | .other => entsB eng env cfg rest rel
    | .node c l es =>
      match dirB eng env cfg (.node c l es) (rel ++ [name]), entsB eng env cfg rest rel with
      | none, _ => none
      | some _, none => none
      | some (errs, w1), some (fe, de, w2) => some (fe, errs ++ de, w1 ++ w2)
end

/-- The linker's symlink target computation (src/linker.rs lines 77-89):
an absolute build path is used unmodified; otherwise one `".."` is
pushed per `"."` component of the link path after its first component,
followed by the build path. -/
def symlinkContent (build_path link_path : MPath) : MPath :=
  if build_path.abs then build_path
  else
    let dots := (link_path.iterComponents.drop 1).filter (fun c => c = ".")
    ⟨false, dots.map (fun _ => "..") ++ build_path.segs⟩

/-- The linker's per-file action (`file` in src/linker.rs): remove any
existing file at the link path (absence is not an error), then create a
symlink there with the computed target. -/
def fileL (cfg : Config) (f : LFile) (rel : List String) : Except LErr Link :=
  let build_path := cfg.build_dir.joinRel rel
  let link_path := cfg.link_dir.joinRel rel
  if f.removeOk = false then .error (link_path, .io)
  else if f.symlinkOk = false then .error (link_path, .io)
  else .ok (rel, symlinkContent build_path link_path)

mutual
/-- The linker's directory walker (`dir` in src/linker.rs): create the
link directory, list the build directory, link files and recurse into
subdirectories, merging errors as the builder does. -/
def dirL (cfg : Config) : FTree LFile → List String → List LErr × List Link
  | .file _, _ => ([], [])
  | .other, _ => ([], [])
  | .node createOk listable entries, rel =>
    let build_path := cfg.build_dir.joinRel rel
    let link_path := cfg.link_dir.joinRel rel
    if createOk = false then ([(link_path, .io)], [])
    else if listable = false then ([(build_path, .io)], [])
    else
      match entsL cfg entries rel with
      | (fe, de, w) => (fe ++ de, w)

/-- Process the entries of one directory for the linker. -/
def entsL (cfg : Config) : FEntries LFile → List String → List LErr × List LErr × List Link
  | .nil, _ => ([], [], [])
  | .cons name child rest, rel =>
    match child with
    | .file f =>
      match fileL cfg f (rel ++ [name]), entsL cfg rest rel with
      | .error e, (fe, de, w) => (e :: fe, de, w)
      | .ok lk, (fe, de, w) => (fe, de, lk :: w)
    | .other => entsL cfg rest rel
    | .node c l es =>
      match dirL cfg (.node c l es) (rel ++ [name]), entsL cfg rest rel with
      | (errs, w1), (fe, de, w2) => (fe, errs ++ de, w1 ++ w2)
end

/-- Lexicographic comparison of character lists by scalar value (for
UTF-8 strings this coincides with Rust's byte-lexicographic string
order). -/
def charListLe : List Char → List Char → Bool
  | [], _ => true
  | _ :: _, [] => false
  | a :: as, b :: bs =>
    if a.val.toNat < b.val.toNat then true
    else if b.val.toNat < a.val.toNat then false
    else charListLe as bs

/-- Lexicographic string order, as `sort_unstable` on `Vec<String>`
orders strings. -/
def strLe (a b : String) : Bool :=
  charListLe a.data b.data

/-- Sort a list of strings lexicographically (the peeker's
`sort_unstable`). -/
def sortStrings (l : List String) : List String :=
  l.insertionSort (fun a b => strLe a b = true)

/-- Remove consecutive duplicates (the peeker's `Vec::dedup`). -/
def dedupConsec : List String → List String
  | [] => []
  | [a] => [a]
  | a :: b :: rest => if a = b then dedupConsec (b :: rest) else a :: dedupConsec (b :: rest)

/-- The peeker's per-file action (`file` in src/peeker.rs): files
without the template suffix contribute nothing; template-suffixed files
are read and parsed and contribute the variables the parsed template
reports. -/
def fileP (eng : Engine) (cfg : Config) (f : TFile) (rel : List String) :
    Except LErr (List String) :=
  let template_path := cfg.template_dir.joinRel rel
  if template_path.extension ≠ some "tpl" then .ok []
  else if f.readable = false then .error (template_path, .io)
  else
    match eng.parse f.text with
    | .error _ => .error (template_path, .template)
    | .ok tpl => .ok tpl.vars

mutual
/-- The peeker's directory walker (`dir` in src/peeker.rs): list the
template directory, gather variables from files then from
subdirectories, and on success sort and deduplicate the collected
variables before returning them. -/
def dirP (eng : Engine) (cfg : Config) : FTree TFile → List String → Except (List LErr) (List String)
  | .file _, _ => .ok []
  | .other, _ => .ok []
  | .node _ listable entries, rel =>
    let template_path := cfg.template_dir.joinRel rel
    if listable = false then .error [(template_path, .io)]
    else
      match entsP eng cfg entries rel with
      | (fe, de, fv, dv) =>
        if fe ++ de = [] then .ok (dedupConsec (sortStrings (fv ++ dv)))
        else .error (fe ++ de)

/-- Process the entries of one directory for the peeker: file errors,
subdirectory error collections, file variables and subdirectory
variables, each in listing order. -/
def entsP (eng : Engine) (cfg : Config) :
    FEntries TFile → List String → List LErr × List LErr × List String × List String
  | .nil, _ => ([], [], [], [])
  | .cons name child rest, rel =>
    match child with
    | .file f =>
      match fileP eng cfg f (rel ++ [name]), entsP eng cfg rest rel with
      | .error e, (fe, de, fv, dv) => (e :: fe, de, fv, dv)
      | .ok vs, (fe, de, fv, dv) => (fe, de, vs ++ fv, dv)
    | .other => entsP eng cfg rest rel
    | .node c l es =>
      match dirP eng cfg (.node c l es) (rel ++ [name]), entsP eng cfg rest rel with
      | .error errs, (fe, de, fv, dv) => (fe, errs ++ de, fv, dv)
      | .ok vs, (fe, de, fv, dv) => (fe, de, fv, vs ++ dv)
end

/-- The variable-discovery run (`print_variables` in src/peeker.rs):
the list of variables printed on success. -/
def print_variables (eng : Engine) (cfg : Config) (t : FTree TFile) :
    Except (List LErr) (List String) :=
  dirP eng cfg t []

/-- A value parsed from the variables file: toml strings and booleans
are accepted; `other` stands for every other toml value type. -/
inductive TomlValue where
  | str : String → TomlValue
  | bool : Bool → TomlValue
  | other : TomlValue
deriving DecidableEq, Repr

/-- The observable outcome of reading and parsing the variables file:
reading failed (absent file, permission error, non-UTF-8 content, ...),
reading succeeded but toml parsing failed, or a parsed flat table. -/
inductive VarsFile where
  | unreadable : VarsFile
  | parseError : VarsFile
  | table : List (String × TomlValue) → VarsFile

/-- The three computed bindings inserted first by `build_tree`
(src/builder.rs lines 21-24). -/
def computedEnv (hostname username os : String) : Env :=
  envInsert (envInsert (envInsert [] "hostname" (.str hostname))
    "username" (.str username)) "os" (.str os)

/-- The variables-file insertion loop (src/builder.rs lines 32-40): each
string or boolean value is inserted; any other value type aborts with a
`Type` error located at the variables file path. -/
def insertVars (env : Env) (path : MPath) : List (String × TomlValue) → Except LErr Env
  | [] => .ok env
  | (k, v) :: rest =>
    match v with
    | .str s => insertVars (envInsert env k (.str s)) path rest
    | .bool b => insertVars (envInsert env k (.bool b)) path rest
    | .other => .error (path, .typeErr)

/-- The flag insertion loop (src/builder.rs lines 45-47): one
boolean-true binding per flag, inserted last. -/
def insertFlags (env : Env) (flags : List String) : Env :=
  flags.foldl (fun e f => envInsert e f (.bool true)) env

/-- Environment assembly of `build_tree` (src/builder.rs lines 21-47):
computed bindings, then variables-file entries (a read failure is
silently skipped; a parse failure or unsupported value type is a fatal
located error), then flags. -/
def buildEnv (hostname username os : String) (vars : VarsFile) (varsPath : MPath)
    (flags : List String) : Except LErr Env :=
  match vars with
  | .unreadable => .ok (insertFlags (computedEnv hostname username os) flags)
  | .parseError => .error (varsPath, .toml)
  | .table entries =>
    match insertVars (computedEnv hostname username os) varsPath entries with
    | .error e => .error e
    | .ok env' => .ok (insertFlags env' flags)

/-- `build_tree` (src/builder.rs): assemble the environment, then walk
the template tree from the empty relative path.  The result is the
error collection (empty means the Rust function returned Ok) and the
files written; `none` models a panic. -/
def build_tree (eng : Engine) (hostname username os : String) (vars : VarsFile)
    (cfg : Config) (t : FTree TFile) : Option (List LErr × List Written) :=
  match buildEnv hostname username os vars cfg.variables_path cfg.flags with
  | .error e => some ([e], [])
  | .ok env => dirB eng env cfg t []

/-- `link_tree` (src/linker.rs): walk the build tree from the empty
relative path. -/
def link_tree (cfg : Config) (t : FTree LFile) : List LErr × List Link :=
  dirL cfg t []

/-- `get_username` (src/builder.rs lines 167-172): the value of the
USER environment variable when that variable is set, otherwise the
value of USERNAME when set, otherwise the empty string.  `none` models
an unset (or non-Unicode) variable. -/
def get_username (user username : Option String) : String :=
  (user.orElse (fun _ => username)).getD ""

/-- Does the final segment of a relative path carry the template
suffix?  (For a nonempty relative path this agrees with the walkers'
test on the joined absolute path.) -/
def relIsTpl (rel : List String) : Bool :=
  match rel.getLast? with
  | none => false
  | some n => extName n = some "tpl"

/-- Modelled from the spec: the relative path under which a template
file is materialised — template-suffixed names lose the suffix, all
other names are unchanged. -/
def outNameOf (rel : List String) : List String :=
  if relIsTpl rel then stripLastSeg rel else rel

mutual
/-- Modelled from the spec: the relative paths of the regular files of
a template tree, each with the template suffix stripped when present
(the expected build-tree contents after a successful build). -/
def specBuiltPaths : FTree TFile → List String → List (List String)
  | .file _, _ => []
  | .other, _ => []
  | .node _ _ es, rel => specEntryPaths es rel

/-- Expected build-tree paths contributed by a directory's entries. -/
def specEntryPaths : FEntries TFile → List String → List (List String)
  | .nil, _ => []
  | .cons n child rest, rel =>
    match child with
    | .file _ => outNameOf (rel ++ [n]) :: specEntryPaths rest rel
    | .other => specEntryPaths rest rel
    | .node _ _ _ => specBuiltPaths child (rel ++ [n]) ++ specEntryPaths rest rel
end

mutual
/-- All regular files of a tree with their relative paths, in listing
order. -/
def treeFiles : FTree TFile → List String → List (List String × TFile)
  | .file _, _ => []
  | .other, _ => []
  | .node _ _ es, rel => entryFiles es rel

/-- The regular files contributed by a directory's entries. -/
def entryFiles : FEntries TFile → List String → List (List String × TFile)
  | .nil, _ => []
  | .cons n child rest, rel =>
    match child with
    | .file f => (rel ++ [n], f) :: entryFiles rest rel
    | .other => entryFiles rest rel
    | .node _ _ _ => treeFiles child (rel ++ [n]) ++ entryFiles rest rel
end

/-- The engine parses `s` to a template that renders to exactly the
bytes `b` under `env`. -/
def rendersTo (eng : Engine) (env : Env) (s : String) (b : List Nat) : Prop :=
  ∃ tpl, eng.parse s = .ok tpl ∧ tpl.render env = .ok b

mutual
/-- Modelled from the spec: the variable names referenced by the
template-suffixed files of a tree, concatenated in listing order
without sorting or deduplication (files without the suffix contribute
nothing; a file whose parse fails contributes nothing). -/
def specRefVars (eng : Engine) : FTree TFile → List String
  | .file _ => []
  | .other => []
  | .node _ _ es => specRefEntryVars eng es

/-- Referenced variables contributed by a directory's entries. -/
def specRefEntryVars (eng : Engine) : FEntries TFile → List String
  | .nil => []
  | .cons n child rest =>
    (match child with
     | .file f =>
       if extName n = some "tpl" then
         match eng.parse f.text with
         | .ok tpl => tpl.vars
         | .error _ => []
       else []
     | .other => []
     | .node _ _ _ => specRefVars eng child) ++ specRefEntryVars eng rest
end

/-- Concatenation of two entry lists (for stating that processing one
entry is independent of its siblings). -/
def FEntries.append {α : Type} : FEntries α → FEntries α → FEntries α
  | .nil, e₂ => e₂
  | .cons n t rest, e₂ => .cons n t (rest.append e₂)

/-- Modelled from the spec: the build output `(p, b)` is correct for the
template-tree file `f` at relative path `q` — a template-suffixed file
lands at the suffix-stripped path with successfully rendered content,
any other file lands at its own path with its bytes copied verbatim. -/
def buildsFrom (eng : Engine) (env : Env) (q : List String) (f : TFile)
    (p : List String) (b : List Nat) : Prop :=
  (relIsTpl q = true ∧ p = stripLastSeg q ∧ rendersTo eng env f.text b) ∨
  (relIsTpl q = false ∧ p = q ∧ b = f.raw)

/-- A template-tree file on which every filesystem operation succeeds. -/
def tfOk (text : String) (raw : List Nat) : TFile :=
  ⟨true, text, raw, true, true, true, true, true⟩

/-- A template-tree file that cannot be opened or read. -/
def tfBadRead : TFile :=
  ⟨false, "", [], true, true, true, true, true⟩

/-- An engine whose templates reference the variable `name` and render
to the single byte 104 (`h`). -/
def engOkH : Engine :=
  ⟨fun _ => .ok ⟨["name"], fun _ => .ok [104]⟩⟩

/-- An engine whose templates render to the single byte 255, which is
not valid UTF-8. -/
def engBad : Engine :=
  ⟨fun _ => .ok ⟨[], fun _ => .ok [255]⟩⟩

/-- An engine for the discovery examples: the template text selects the
variable list the parsed template reports. -/
def engVars : Engine :=
  ⟨fun s => .ok ⟨if s = "t1" then ["a"]
    else if s = "t2" then ["a", "b"]
    else if s = "u1" then ["b"]
    else if s = "u2" then ["a", "a"]
    else [], fun _ => .ok []⟩⟩

/-- A concrete run configuration for the witnesses. -/
def cfgW : Config :=
  ⟨⟨false, ["tree"]⟩, ⟨false, ["build"]⟩, ⟨false, ["links"]⟩,
   ⟨false, ["cfg", "variables.toml"]⟩, ["flag"]⟩

/-- A build-tree file on which the linker's operations succeed. -/
def lfOk : LFile := ⟨true, true⟩

/-- Witness template tree for the partial-failure example: nine healthy
static files and one unreadable template file. -/
def entsHealthy1 : FEntries TFile :=
  .cons "f1" (.file (tfOk "" [1]))
    (.cons "f2" (.file (tfOk "" [2]))
      (.cons "f3" (.file (tfOk "" [3]))
        (.cons "f4" (.file (tfOk "" [4])) .nil)))

/-- The remaining five healthy files of the partial-failure example. -/
def entsHealthy2 : FEntries TFile :=
  .cons "f6" (.file (tfOk "" [6]))
    (.cons "f7" (.file (tfOk "" [7]))
      (.cons "f8" (.file (tfOk "" [8]))
        (.cons "f9" (.file (tfOk "" [9]))
          (.cons "f10" (.file (tfOk "" [10])) .nil))))

/-- Witness template tree for a fully successful build: a rendered
template, a copied static file and a subdirectory with one static
file. -/
def treeC1 : FTree TFile :=
  .node true true
    (.cons "conf.tpl" (.file (tfOk "x" [0]))
      (.cons "plain" (.file (tfOk "" [1, 2]))
        (.cons "sub" (.node true true (.cons "inner" (.file (tfOk "" [3])) .nil))
          .nil)))

/-- Witness template tree with one unlistable subdirectory. -/
def treeBadList : FTree TFile :=
  .node true true (.cons "deaf" (.node true false .nil) .nil)

/-- Witness template tree for the variable-discovery example: two
templates referencing `a` and `a, b` respectively. -/
def treePeek : FTree TFile :=
  .node true true
    (.cons "one.tpl" (.file (tfOk "t1" []))
      (.cons "two.tpl" (.file (tfOk "t2" [])) .nil))

/-- Inner directory for the per-level-sorting counterexample: its two
templates reference `b` and `a, a` in listing order. -/
def treePeekInner : FTree TFile :=
  .node true true
    (.cons "p.tpl" (.file (tfOk "u1" []))
      (.cons "q.tpl" (.file (tfOk "u2" [])) .nil))

mutual
/-- Mutual induction over trees and entry lists. -/
theorem ftreeInd {α : Type} {P : FTree α → Prop} {Q : FEntries α → Prop}
    (hfile : ∀ f, P (.file f)) (hother : P .other)
    (hnode : ∀ c l es, Q es → P (.node c l es))
    (hnil : Q .nil)
    (hcons : ∀ n t rest, P t → Q rest → Q (.cons n t rest)) :
    ∀ t, P t
  | .file f => hfile f
  | .other => hother
  | .node c l es => hnode c l es (fentriesInd hfile hother hnode hnil hcons es)

/-- Mutual induction over entry lists and trees. -/
theorem fentriesInd {α : Type} {P : FTree α → Prop} {Q : FEntries α → Prop}
    (hfile : ∀ f, P (.file f)) (hother : P .other)
    (hnode : ∀ c l es, Q es → P (.node c l es))
    (hnil : Q .nil)
    (hcons : ∀ n t rest, P t → Q rest → Q (.cons n t rest)) :
    ∀ es, Q es
  | .nil => hnil
  | .cons n t rest =>
    hcons n t rest (ftreeInd hfile hother hnode hnil hcons t)
      (fentriesInd hfile hother hnode hnil hcons rest)
end

/-- The last segment of a path extended by `rel ++ [n]` is `n`. -/
theorem getLast?_join (xs rel : List String) (n : String) :
    (xs ++ (rel ++ [n])).getLast? = some n := by
  rw [← List.append_assoc]
  exact List.getLast?_concat _

/-- The extension test of the walkers on a joined path sees exactly the
entry name's extension. -/
theorem joinRel_ext (d : MPath) (rel : List String) (n : String) :
    (d.joinRel (rel ++ [n])).extension = extName n := by
  simp [MPath.joinRel, MPath.extension, getLast?_join]

/-- Stripping the extension of a joined path strips it on the relative
part. -/
theorem joinRel_setExt (d : MPath) (rel : List String) (n : String) :
    (d.joinRel (rel ++ [n])).setExtEmpty = d.joinRel (stripLastSeg (rel ++ [n])) := by
  simp [MPath.joinRel, MPath.setExtEmpty, stripLastSeg, getLast?_join,
    List.getLast?_concat, ← List.append_assoc, List.dropLast_concat]

/-- The template-suffix test on a relative path ending in `n` is the
test on `n`. -/
theorem relIsTpl_concat (rel : List String) (n : String) :
    relIsTpl (rel ++ [n]) = decide (extName n = some "tpl") := by
  simp [relIsTpl, List.getLast?_concat]

/-- Totality of the lexicographic comparison. -/
theorem charListLe_total : ∀ as bs, charListLe as bs = true ∨ charListLe bs as = true
  | [], _ => Or.inl rfl
  | _ :: _, [] => Or.inr rfl
  | a :: as, b :: bs => by
    rcases Nat.lt_trichotomy a.val.toNat b.val.toNat with h | h | h
    · exact Or.inl (by simp [charListLe, h])
    · have hab : ¬ a.val.toNat < b.val.toNat := by omega
      have hba : ¬ b.val.toNat < a.val.toNat := by omega
      rcases charListLe_total as bs with ih | ih
      · exact Or.inl (by simp [charListLe, hab, hba, ih])
      · exact Or.inr (by simp [charListLe, hab, hba, ih])
    · exact Or.inr (by simp [charListLe, h])

/-- Transitivity of the lexicographic comparison. -/
theorem charListLe_trans : ∀ as bs cs, charListLe as bs = true →
    charListLe bs cs = true → charListLe as cs = true
  | [], _, _ => fun _ _ => rfl
  | _ :: _, [], _ => fun h _ => by simp [charListLe] at h
  | _ :: _, _ :: _, [] => fun _ h => by simp [charListLe] at h
  | a :: as, b :: bs, c :: cs => fun h₁ h₂ => by
    simp only [charListLe] at h₁ h₂ ⊢
    rcases Nat.lt_trichotomy a.val.toNat b.val.toNat with hab | hab | hab <;>
      rcases Nat.lt_trichotomy b.val.toNat c.val.toNat with hbc | hbc | hbc
    · simp [show a.val.toNat < c.val.toNat by omega]
    · simp [show a.val.toNat < c.val.toNat by omega]
    · simp [show ¬ b.val.toNat < c.val.toNat by omega, hbc] at h₂
    · simp [show a.val.toNat < c.val.toNat by omega]
    · have h₁' : charListLe as bs = true := by
        simpa [show ¬ a.val.toNat < b.val.toNat by omega,
          show ¬ b.val.toNat < a.val.toNat by omega] using h₁
      have h₂' : charListLe bs cs = true := by
        simpa [show ¬ b.val.toNat < c.val.toNat by omega,
          show ¬ c.val.toNat < b.val.toNat by omega] using h₂
      simp [show ¬ a.val.toNat < c.val.toNat by omega,
        show ¬ c.val.toNat < a.val.toNat by omega,
        charListLe_trans as bs cs h₁' h₂']
    · simp [show ¬ b.val.toNat < c.val.toNat by omega, hbc] at h₂
    · simp [show ¬ a.val.toNat < b.val.toNat by omega, hab] at h₁
    · simp [show ¬ a.val.toNat < b.val.toNat by omega, hab] at h₁
    · simp [show ¬ a.val.toNat < b.val.toNat by omega, hab] at h₁

/-- Antisymmetry of the lexicographic comparison. -/
theorem charListLe_antisymm : ∀ as bs, charListLe as bs = true →
    charListLe bs as = true → as = bs
  | [], [] => fun _ _ => rfl
  | [], _ :: _ => fun _ h => by simp [charListLe] at h
  | _ :: _, [] => fun h _ => by simp [charListLe] at h
  | a :: as, b :: bs => fun h₁ h₂ => by
    simp only [charListLe] at h₁ h₂
    rcases Nat.lt_trichotomy a.val.toNat b.val.toNat with hab | hab | hab
    · simp [show ¬ b.val.toNat < a.val.toNat by omega, hab] at h₂
    · have heq : a = b := Char.ext (UInt32.toNat.inj hab)
      have h₁' : charListLe as bs = true := by
        simpa [show ¬ a.val.toNat < b.val.toNat by omega,
          show ¬ b.val.toNat < a.val.toNat by omega] using h₁
      have h₂' : charListLe bs as = true := by
        simpa [show ¬ a.val.toNat < b.val.toNat by omega,
          show ¬ b.val.toNat < a.val.toNat by omega] using h₂
      rw [heq, charListLe_antisymm as bs h₁' h₂']
    · simp [show ¬ a.val.toNat < b.val.toNat by omega, hab] at h₁

/-- Totality of the string comparison. -/
theorem strLe_total (a b : String) : strLe a b = true ∨ strLe b a = true :=
  charListLe_total a.data b.data

/-- Transitivity of the string comparison. -/
theorem strLe_trans (a b c : String) (h₁ : strLe a b = true) (h₂ : strLe b c = true) :
    strLe a c = true :=
  charListLe_trans a.data b.data c.data h₁ h₂

/-- Antisymmetry of the string comparison. -/
theorem strLe_antisymm (a b : String) (h₁ : strLe a b = true) (h₂ : strLe b a = true) :
    a = b := by
  cases a; cases b
  exact congrArg String.mk (charListLe_antisymm _ _ h₁ h₂)

/-- Removing consecutive duplicates yields a sublist. -/
theorem dedupConsec_sublist : ∀ l : List String, List.Sublist (dedupConsec l) l
  | [] => List.Sublist.refl _
  | [_] => List.Sublist.refl _
  | a :: b :: rest => by
    simp only [dedupConsec]
    split_ifs with h
    · exact (dedupConsec_sublist (b :: rest)).cons a
    · exact (dedupConsec_sublist (b :: rest)).cons₂ a

/-- Removing consecutive duplicates preserves the elements. -/
theorem mem_dedupConsec : ∀ (l : List String) (x : String), x ∈ dedupConsec l ↔ x ∈ l
  | [], x => by simp [dedupConsec]
  | [a], x => by simp [dedupConsec]
  | a :: b :: rest, x => by
    simp only [dedupConsec]
    split_ifs with h
    · rw [mem_dedupConsec (b :: rest) x]
      subst h
      simp [List.mem_cons]
    · simp [List.mem_cons, mem_dedupConsec (b :: rest) x]

/-- Removing consecutive duplicates preserves sortedness. -/
theorem dedupConsec_sorted {r : String → String → Prop} {l : List String}
    (h : l.Sorted r) : (dedupConsec l).Sorted r :=
  List.Pairwise.sublist (dedupConsec_sublist l) h

/-- On a lexicographically sorted list, removing consecutive duplicates
removes all duplicates. -/
theorem dedupConsec_nodup : ∀ l : List String,
    l.Sorted (fun a b => strLe a b = true) → (dedupConsec l).Nodup
  | [] => fun _ => by simp [dedupConsec]
  | [_] => fun _ => by simp [dedupConsec]
  | a :: b :: rest => fun h => by
    rw [List.sorted_cons] at h
    obtain ⟨ha, htail⟩ := h
    simp only [dedupConsec]
    split_ifs with heq
    · exact dedupConsec_nodup (b :: rest) htail
    · rw [List.nodup_cons]
      refine ⟨?_, dedupConsec_nodup (b :: rest) htail⟩
      intro hmem
      rw [mem_dedupConsec] at hmem
      rcases List.mem_cons.mp hmem with h₁ | h₁
      · exact heq h₁
      · have hba : strLe b a = true := by
          rw [List.sorted_cons] at htail
          exact htail.1 a h₁
        have hab : strLe a b = true := ha b (by simp)
        exact heq (strLe_antisymm a b hab hba)

/-- C5: in each of the three walkers, a directory call whose source
listing fails (with the destination creation having succeeded, where
there is one) returns exactly one located error, located at the source
directory for that walk (template tree for builder and peeker, build
tree for the linker), with no partial results and no file or
subdirectory processed. -/
theorem claim_C5 (eng : Engine) (env : Env) (cfg cfg' : Config)
    (es pes : FEntries TFile) (les : FEntries LFile) (rel rel' : List String) (c : Bool) :
    dirB eng env cfg (.node true false es) rel =
      some ([(cfg.template_dir.joinRel rel, .io)], []) ∧
    dirL cfg' (.node true false les) rel' =
      ([(cfg'.build_dir.joinRel rel', .io)], []) ∧
    dirP eng cfg (.node c false pes) rel =
      .error [(cfg.template_dir.joinRel rel, .io)] := by
  refine ⟨rfl, rfl, ?_⟩
  cases c <;> rfl

/-- C3 (code bug evidence): with build root `build`, link root `links`
and a file at relative path `sub/file`, the linker's file action
creates a symlink whose target is the build path verbatim (the
parent-step loop counts `"."` components after the first path
component, and component normalisation never yields any, so it runs
zero times); resolved against the link's directory `links/sub`, that
target denotes `links/sub/build/sub/file`, not `build/sub/file` as the
claim requires. -/
theorem claim_C3 :
    fileL cfgW lfOk ["sub", "file"] =
      .ok (["sub", "file"], ⟨false, ["build", "sub", "file"]⟩) ∧
    resolveTarget ((cfgW.link_dir.joinRel ["sub", "file"]).parentDir)
      ⟨false, ["build", "sub", "file"]⟩ =
      ⟨false, ["links", "sub", "build", "sub", "file"]⟩ ∧
    (⟨false, ["links", "sub", "build", "sub", "file"]⟩ : MPath) ≠
      cfgW.build_dir.joinRel ["sub", "file"] := by
  refine ⟨rfl, rfl, ?_⟩
  decide

/-- C8 counterexample: with USER set to the empty string and USERNAME
set to `vidde`, the username binding is the empty string, not the
USERNAME value the claim requires. -/
theorem claim_C8_cex :
    get_username (some "") (some "vidde") = "" ∧ ("" : String) ≠ "vidde" := by
  refine ⟨rfl, ?_⟩
  decide

/-- C8 (amended): the username binding is the value of USER whenever
USER is set — even when that value is empty — otherwise the value of
USERNAME when set, otherwise the empty string. -/
theorem claim_C8 :
    (∀ u v, get_username (some u) v = u) ∧
    (∀ v, get_username none (some v) = v) ∧
    get_username none none = "" :=
  ⟨fun _ _ => rfl, fun _ => rfl, rfl⟩

/-- Flag bindings are inserted last: a key named among the flags looks
up as boolean true, any other key keeps its earlier binding. -/
theorem envLookup_insertFlags (env : Env) (flags : List String) (k : String) :
    envLookup (insertFlags env flags) k =
      if k ∈ flags then some (.bool true) else envLookup env k := by
  induction flags generalizing env with
  | nil => simp [insertFlags]
  | cons f fs ih =>
    have hstep : insertFlags env (f :: fs) = insertFlags (envInsert env f (.bool true)) fs := rfl
    rw [hstep, ih]
    by_cases h1 : k ∈ fs
    · simp [h1, List.mem_cons]
    · by_cases h2 : f = k
      · simp [h1, h2, envLookup, envInsert, List.mem_cons]
      · simp [h1, h2, envLookup, envInsert, List.mem_cons, Ne.symm h2]

/-- The variables-file insertion loop fails with a Type error at the
variables path as soon as the table holds a value that is neither a
string nor a boolean. -/
theorem insertVars_other (env : Env) (p : MPath) :
    ∀ entries : List (String × TomlValue), (∃ k, (k, TomlValue.other) ∈ entries) →
    insertVars env p entries = .error (p, .typeErr) := by
  intro entries
  induction entries generalizing env with
  | nil => rintro ⟨k, hk⟩; simp at hk
  | cons e rest ih =>
    rintro ⟨k, hk⟩
    obtain ⟨k', v⟩ := e
    cases v with
    | str s =>
      have hrest : (k, TomlValue.other) ∈ rest := by
        rcases List.mem_cons.mp hk with h | h
        · simp at h
        · exact h
      simpa only [insertVars] using ih _ ⟨k, hrest⟩
    | bool b =>
      have hrest : (k, TomlValue.other) ∈ rest := by
        rcases List.mem_cons.mp hk with h | h
        · simp at h
        · exact h
      simpa only [insertVars] using ih _ ⟨k, hrest⟩
    | other => simp [insertVars]

/-- C4: when the environment is assembled successfully from the
computed values, a variables-file table and the flags, any key that is
also named as a flag is effectively bound to boolean true, whatever the
table bound it to. -/
theorem claim_C4 (h u o : String) (vars : List (String × TomlValue)) (p : MPath)
    (flags : List String) (env : Env) (k : String)
    (hkv : (k, TomlValue.bool false) ∈ vars)
    (henv : buildEnv h u o (.table vars) p flags = .ok env)
    (hk : k ∈ flags) :
    envLookup env k = some (.bool true) := by
  simp only [buildEnv] at henv
  cases hv : insertVars (computedEnv h u o) p vars with
  | error e => rw [hv] at henv; simp at henv
  | ok env' =>
    rw [hv] at henv
    simp only [Except.ok.injEq] at henv
    subst henv
    rw [envLookup_insertFlags]
    simp [hk]

/-- C4 witness: the key `k` is bound to false by the file and named as
a flag; its effective binding is boolean true. -/
theorem claim_C4_witness :
    envLookup [("k", Value.bool true), ("k", Value.bool false), ("os", Value.str "o"),
      ("username", Value.str "u"), ("hostname", Value.str "h")] "k" =
      some (.bool true) :=
  claim_C4 "h" "u" "o" [("k", TomlValue.bool false)] cfgW.variables_path ["k"] _ "k"
    (by simp) rfl (by simp)

/-- C7: a variables file that parses to a table holding a value that is
neither a string nor a boolean makes `build_tree` fail with exactly one
Type error located at the variables file path, before any traversal:
no file is written. -/
theorem claim_C7 (eng : Engine) (h u o : String) (entries : List (String × TomlValue))
    (cfg : Config) (t : FTree TFile) (k : String)
    (hk : (k, TomlValue.other) ∈ entries) :
    build_tree eng h u o (.table entries) cfg t =
      some ([(cfg.variables_path, .typeErr)], []) := by
  simp [build_tree, buildEnv, insertVars_other _ _ entries ⟨k, hk⟩]

/-- C7 witness: a table holding one datetime-like value aborts the
build with the single located Type error and an empty build tree. -/
theorem claim_C7_witness :
    build_tree engOkH "h" "u" "o" (.table [("x", TomlValue.other)]) cfgW treeC1 =
      some ([(cfgW.variables_path, .typeErr)], []) :=
  claim_C7 engOkH "h" "u" "o" [("x", TomlValue.other)] cfgW treeC1 "x" (by simp)

/-- C9: on a template-suffixed file whose read, metadata fetch, parse
and render all succeed, the builder's file action panics (models the
`from_utf8(..).unwrap()`) exactly when the rendered bytes are not valid
UTF-8; when they are valid the action succeeds and writes exactly the
rendered bytes to the suffix-stripped destination. -/
theorem claim_C9 (eng : Engine) (env : Env) (cfg : Config) (f : TFile)
    (rel : List String) (tpl : Template) (b : List Nat)
    (hsfx : (cfg.template_dir.joinRel rel).extension = some "tpl")
    (hread : f.readable = true) (hmeta : f.metaOk = true)
    (hparse : eng.parse f.text = .ok tpl) (hrender : tpl.render env = .ok b)
    (hcreate : f.createOk = true) (hwrite : f.writeOk = true)
    (hperm : f.setPermsOk = true) :
    (isValidUtf8 b = false → fileB eng env cfg f rel = none) ∧
    (isValidUtf8 b = true → fileB eng env cfg f rel = some (.ok (stripLastSeg rel, b))) := by
  constructor <;> intro hb <;>
    simp [fileB, hsfx, hread, hmeta, hparse, hrender, hb, hcreate, hwrite, hperm]

/-- C9 witness: an engine rendering the lone byte 255 makes the file
action panic; an engine rendering the byte 104 makes it write exactly
that byte at the suffix-stripped path. -/
theorem claim_C9_witness :
    fileB engBad [] cfgW (tfOk "x" [0]) ["a.tpl"] = none ∧
    fileB engOkH [] cfgW (tfOk "x" [0]) ["a.tpl"] = some (.ok (["a"], [104])) :=
  ⟨(claim_C9 engBad [] cfgW (tfOk "x" [0]) ["a.tpl"] ⟨[], fun _ => .ok [255]⟩ [255]
      rfl rfl rfl rfl rfl rfl rfl rfl).1 rfl,
   (claim_C9 engOkH [] cfgW (tfOk "x" [0]) ["a.tpl"] ⟨["name"], fun _ => .ok [104]⟩ [104]
      rfl rfl rfl rfl rfl rfl rfl rfl).2 rfl⟩

/-- Every error of the builder's file action is located either at the
template source path or at the suffix-stripped destination path. -/
theorem fileB_error_cases (eng : Engine) (env : Env) (cfg : Config) (f : TFile)
    (rel : List String) (e : LErr) (h : fileB eng env cfg f rel = some (.error e)) :
    e.1 = cfg.template_dir.joinRel rel ∨ e.1 = (cfg.build_dir.joinRel rel).setExtEmpty := by
  by_cases hx : (cfg.template_dir.joinRel rel).extension = some "tpl"
  · cases hr : f.readable with
    | false =>
      simp [fileB, hx, hr] at h
      exact Or.inl (by rw [← h])
    | true =>
      cases hm : f.metaOk with
      | false =>
        simp [fileB, hx, hr, hm] at h
        exact Or.inl (by rw [← h])
      | true =>
        cases hp : eng.parse f.text with
        | error u =>
          simp [fileB, hx, hr, hm, hp] at h
          exact Or.inl (by rw [← h])
        | ok tpl =>
          cases hrd : tpl.render env with
          | error u =>
            simp [fileB, hx, hr, hm, hp, hrd] at h
            exact Or.inl (by rw [← h])
          | ok b =>
            cases hv : isValidUtf8 b with
            | false => simp [fileB, hx, hr, hm, hp, hrd, hv] at h
            | true =>
              cases hc : f.createOk with
              | false =>
                simp [fileB, hx, hr, hm, hp, hrd, hv, hc] at h
                exact Or.inr (by rw [← h])
              | true =>
                cases hw : f.writeOk with
                | false =>
                  simp [fileB, hx, hr, hm, hp, hrd, hv, hc, hw] at h
                  exact Or.inr (by rw [← h])
                | true =>
                  cases hs : f.setPermsOk with
                  | false =>
                    simp [fileB, hx, hr, hm, hp, hrd, hv, hc, hw, hs] at h
                    exact Or.inr (by rw [← h])
                  | true =>
                    simp [fileB, hx, hr, hm, hp, hrd, hv, hc, hw, hs] at h
  · cases hc : f.copyOk with
    | false =>
      simp [fileB, hx, hc] at h
      exact Or.inl (by rw [← h])
    | true => simp [fileB, hx, hc] at h

/-- Every error reported by the builder walk is located at a
template-tree path or a build-tree path (never, in particular, at the
variables file path when that path lies under neither root). -/
theorem dirB_error_loc (eng : Engine) (env : Env) (cfg : Config) (t : FTree TFile) :
    ∀ rel errs w, dirB eng env cfg t rel = some (errs, w) →
      ∀ e ∈ errs, ∃ r, e.1 = cfg.template_dir.joinRel r ∨ e.1 = cfg.build_dir.joinRel r := by
  refine @ftreeInd TFile
    (fun t => ∀ rel errs w, dirB eng env cfg t rel = some (errs, w) →
      ∀ e ∈ errs, ∃ r, e.1 = cfg.template_dir.joinRel r ∨ e.1 = cfg.build_dir.joinRel r)
    (fun es => ∀ rel fe de w, entsB eng env cfg es rel = some (fe, de, w) →
      ∀ e ∈ fe ++ de, ∃ r, e.1 = cfg.template_dir.joinRel r ∨ e.1 = cfg.build_dir.joinRel r)
    ?_ ?_ ?_ ?_ ?_ t
  · intro f rel errs w hh e he
    simp only [dirB, Option.some.injEq, Prod.mk.injEq] at hh
    obtain ⟨h1, h2⟩ := hh
    subst h1
    simp at he
  · intro rel errs w hh e he
    simp only [dirB, Option.some.injEq, Prod.mk.injEq] at hh
    obtain ⟨h1, h2⟩ := hh
    subst h1
    simp at he
  · intro c l es ihq rel errs w hh e he
    cases c with
    | false =>
      rw [show dirB eng env cfg (.node false l es) rel =
        some ([(cfg.build_dir.joinRel rel, .io)], []) from rfl] at hh
      simp only [Option.some.injEq, Prod.mk.injEq] at hh
      obtain ⟨h1, h2⟩ := hh
      subst h1
      rcases List.mem_singleton.mp he with rfl
      exact ⟨rel, Or.inr rfl⟩
    | true =>
      cases l with
      | false =>
        rw [show dirB eng env cfg (.node true false es) rel =
          some ([(cfg.template_dir.joinRel rel, .io)], []) from rfl] at hh
        simp only [Option.some.injEq, Prod.mk.injEq] at hh
        obtain ⟨h1, h2⟩ := hh
        subst h1
        rcases List.mem_singleton.mp he with rfl
        exact ⟨rel, Or.inl rfl⟩
      | true =>
        cases hq : entsB eng env cfg es rel with
        | none =>
          rw [show dirB eng env cfg (.node true true es) rel =
            (match entsB eng env cfg es rel with
             | none => none
             | some (fe, de, w) => some (fe ++ de, w)) from rfl, hq] at hh
          simp at hh
        | some res =>
          obtain ⟨fe, de, w'⟩ := res
          have hd : dirB eng env cfg (.node true true es) rel = some (fe ++ de, w') := by
            rw [show dirB eng env cfg (.node true true es) rel =
              (match entsB eng env cfg es rel with
               | none => none
               | some (fe, de, w) => some (fe ++ de, w)) from rfl, hq]
          rw [hd] at hh
          simp only [Option.some.injEq, Prod.mk.injEq] at hh
          obtain ⟨h1, h2⟩ := hh
          subst h1
          exact ihq rel fe de w' hq e he
  · intro rel fe de w hh e he
    simp only [entsB, Option.some.injEq, Prod.mk.injEq] at hh
    obtain ⟨h1, h2, h3⟩ := hh
    subst h1; subst h2
    simp at he
  · intro n t rest ihp ihq rel fe de w hh e he
    cases t with
    | file f =>
      cases hf : fileB eng env cfg f (rel ++ [n]) with
      | none => simp [entsB, hf] at hh
      | some r =>
        cases hr : entsB eng env cfg rest rel with
        | none => cases r <;> simp [entsB, hf, hr] at hh
        | some res =>
          obtain ⟨fe', de', w'⟩ := res
          cases r with
          | error er =>
            simp only [entsB, hf, hr, Option.some.injEq, Prod.mk.injEq] at hh
            obtain ⟨h1, h2, h3⟩ := hh
            subst h1; subst h2
            rcases List.mem_append.mp he with h4 | h4
            · rcases List.mem_cons.mp h4 with rfl | h5
              · rcases fileB_error_cases eng env cfg f (rel ++ [n]) e hf with h6 | h6
                · exact ⟨rel ++ [n], Or.inl h6⟩
                · refine ⟨stripLastSeg (rel ++ [n]), Or.inr ?_⟩
                  rw [h6, joinRel_setExt]
              · exact ihq rel fe' de' w' hr e (List.mem_append.mpr (Or.inl h5))
            · exact ihq rel fe' de' w' hr e (List.mem_append.mpr (Or.inr h4))
          | ok wr =>
            simp only [entsB, hf, hr, Option.some.injEq, Prod.mk.injEq] at hh
            obtain ⟨h1, h2, h3⟩ := hh
            subst h1; subst h2
            exact ihq rel fe' de' w' hr e he
    | other =>
      exact ihq rel fe de w (by simpa [entsB] using hh) e he
    | node c l es =>
      cases hd : dirB eng env cfg (.node c l es) (rel ++ [n]) with
      | none => simp [entsB, hd] at hh
      | some res₁ =>
        obtain ⟨errs', w1⟩ := res₁
        cases hr : entsB eng env cfg rest rel with
        | none => simp [entsB, hd, hr] at hh
        | some res =>
          obtain ⟨fe', de', w2⟩ := res
          simp only [entsB, hd, hr, Option.some.injEq, Prod.mk.injEq] at hh
          obtain ⟨h1, h2, h3⟩ := hh
          subst h1; subst h2
          rcases List.mem_append.mp he with h4 | h4
          · exact ihq rel fe' de' w2 hr e (List.mem_append.mpr (Or.inl h4))
          · rcases List.mem_append.mp h4 with h5 | h5
            · exact ihp (rel ++ [n]) errs' w1 hd e h5
            · exact ihq rel fe' de' w2 hr e (List.mem_append.mpr (Or.inr h5))

/-- C10: when reading the variables file fails — for any reason — the
failure is silently skipped: the build runs with exactly the computed
bindings plus the flag bindings, and every error the run can report is
located at a template-tree or build-tree path, never one recorded for
the variables file. -/
theorem claim_C10 (eng : Engine) (h u o : String) (cfg : Config) (t : FTree TFile) :
    (build_tree eng h u o .unreadable cfg t =
      dirB eng (insertFlags (computedEnv h u o) cfg.flags) cfg t []) ∧
    (∀ errs w, build_tree eng h u o .unreadable cfg t = some (errs, w) →
      ∀ e ∈ errs, ∃ r, e.1 = cfg.template_dir.joinRel r ∨ e.1 = cfg.build_dir.joinRel r) := by
  constructor
  · rfl
  · intro errs w hw e he
    exact dirB_error_loc eng (insertFlags (computedEnv h u o) cfg.flags) cfg t
      [] errs w hw e he

/-- C10 witness: with an unreadable variables file the build proceeds
with the computed-plus-flags environment, and the one error of a run
over a tree with an unlistable subdirectory is located under the
template root. -/
theorem claim_C10_witness :
    (build_tree engOkH "h" "u" "o" .unreadable cfgW treeBadList =
      dirB engOkH (insertFlags (computedEnv "h" "u" "o") cfgW.flags) cfgW treeBadList []) ∧
    (∃ r, (MPath.mk false ["tree", "deaf"]) = cfgW.template_dir.joinRel r ∨
      (MPath.mk false ["tree", "deaf"]) = cfgW.build_dir.joinRel r) :=
  ⟨(claim_C10 engOkH "h" "u" "o" cfgW treeBadList).1,
   by
     have h2 := (claim_C10 engOkH "h" "u" "o" cfgW treeBadList).2
       [(⟨false, ["tree", "deaf"]⟩, EKind.io)] [] rfl
       (⟨false, ["tree", "deaf"]⟩, EKind.io) (by simp)
     simpa using h2⟩

/-- Unfolding of the builder's entry processing on a file entry. -/
theorem entsB_cons_file_eq (eng : Engine) (env : Env) (cfg : Config) (n : String)
    (f : TFile) (rest : FEntries TFile) (rel : List String) :
    entsB eng env cfg (.cons n (.file f) rest) rel =
      (match fileB eng env cfg f (rel ++ [n]), entsB eng env cfg rest rel with
       | none, _ => none
       | some _, none => none
       | some (.error e), some (fe, de, w) => some (e :: fe, de, w)
       | some (.ok wr), some (fe, de, w) => some (fe, de, wr :: w)) := rfl

/-- Unfolding of the builder's entry processing on a non-file,
non-directory entry. -/
theorem entsB_cons_other_eq (eng : Engine) (env : Env) (cfg : Config) (n : String)
    (rest : FEntries TFile) (rel : List String) :
    entsB eng env cfg (.cons n .other rest) rel = entsB eng env cfg rest rel := rfl

/-- Unfolding of the builder's entry processing on a subdirectory
entry. -/
theorem entsB_cons_node_eq (eng : Engine) (env : Env) (cfg : Config) (n : String)
    (c l : Bool) (es rest : FEntries TFile) (rel : List String) :
    entsB eng env cfg (.cons n (.node c l es) rest) rel =
      (match dirB eng env cfg (.node c l es) (rel ++ [n]), entsB eng env cfg rest rel with
       | none, _ => none
       | some _, none => none
       | some (errs, w1), some (fe, de, w2) => some (fe, errs ++ de, w1 ++ w2)) := rfl

/-- Unfolding of the builder's directory walk on a healthy directory. -/
theorem dirB_node_ok_eq (eng : Engine) (env : Env) (cfg : Config)
    (es : FEntries TFile) (rel : List String) :
    dirB eng env cfg (.node true true es) rel =
      (match entsB eng env cfg es rel with
       | none => none
       | some (fe, de, w) => some (fe ++ de, w)) := rfl

/-- Builder entry processing distributes over concatenation of entry
lists: the results of two groups of sibling entries are computed
independently and concatenated componentwise. -/
theorem entsB_append (eng : Engine) (env : Env) (cfg : Config)
    (e₂ : FEntries TFile) (rel : List String)
    (a₂ b₂ : List LErr) (c₂ : List Written)
    (h₂ : entsB eng env cfg e₂ rel = some (a₂, b₂, c₂)) :
    ∀ e₁ (a₁ b₁ : List LErr) (c₁ : List Written),
      entsB eng env cfg e₁ rel = some (a₁, b₁, c₁) →
      entsB eng env cfg (e₁.append e₂) rel = some (a₁ ++ a₂, b₁ ++ b₂, c₁ ++ c₂) := by
  refine @fentriesInd TFile (fun _ => True)
    (fun e₁ => ∀ (a₁ b₁ : List LErr) (c₁ : List Written),
      entsB eng env cfg e₁ rel = some (a₁, b₁, c₁) →
      entsB eng env cfg (e₁.append e₂) rel = some (a₁ ++ a₂, b₁ ++ b₂, c₁ ++ c₂))
    (fun _ => trivial) trivial (fun _ _ _ _ => trivial) ?_ ?_
  · intro a₁ b₁ c₁ h₁
    rw [show entsB eng env cfg .nil rel = some ([], [], []) from rfl] at h₁
    simp only [Option.some.injEq, Prod.mk.injEq] at h₁
    obtain ⟨h3, h4, h5⟩ := h₁
    subst h3; subst h4; subst h5
    simpa [FEntries.append] using h₂
  · intro n t rest _ ih a₁ b₁ c₁ h₁
    have happ : FEntries.append (.cons n t rest) e₂ = .cons n t (rest.append e₂) := rfl
    rw [happ]
    cases t with
    | file f =>
      cases hf : fileB eng env cfg f (rel ++ [n]) with
      | none => rw [entsB_cons_file_eq, hf] at h₁; simp at h₁
      | some r =>
        cases hr : entsB eng env cfg rest rel with
        | none => rw [entsB_cons_file_eq, hf, hr] at h₁; cases r <;> simp at h₁
        | some res =>
          obtain ⟨fe, de, w⟩ := res
          have ih2 := ih fe de w hr
          cases r with
          | error er =>
            rw [entsB_cons_file_eq, hf, hr] at h₁
            simp only [Option.some.injEq, Prod.mk.injEq] at h₁
            obtain ⟨h3, h4, h5⟩ := h₁
            subst h3; subst h4; subst h5
            rw [entsB_cons_file_eq, hf, ih2]
            simp
          | ok wr =>
            rw [entsB_cons_file_eq, hf, hr] at h₁
            simp only [Option.some.injEq, Prod.mk.injEq] at h₁
            obtain ⟨h3, h4, h5⟩ := h₁
            subst h3; subst h4; subst h5
            rw [entsB_cons_file_eq, hf, ih2]
            simp
    | other =>
      rw [entsB_cons_other_eq] at h₁
      rw [entsB_cons_other_eq]
      exact ih a₁ b₁ c₁ h₁
    | node c l es =>
      cases hd : dirB eng env cfg (.node c l es) (rel ++ [n]) with
      | none => rw [entsB_cons_node_eq, hd] at h₁; simp at h₁
      | some res₁ =>
        obtain ⟨errs, w1⟩ := res₁
        cases hr : entsB eng env cfg rest rel with
        | none => rw [entsB_cons_node_eq, hd, hr] at h₁; simp at h₁
        | some res =>
          obtain ⟨fe, de, w2⟩ := res
          have ih2 := ih fe de w2 hr
          rw [entsB_cons_node_eq, hd, hr] at h₁
          simp only [Option.some.injEq, Prod.mk.injEq] at h₁
          obtain ⟨h3, h4, h5⟩ := h₁
          subst h3; subst h4; subst h5
          rw [entsB_cons_node_eq, hd, ih2]
          simp

/-- Unfolding of the linker's entry processing on a file entry. -/
theorem entsL_cons_file_eq (cfg : Config) (n : String) (f : LFile)
    (rest : FEntries LFile) (rel : List String) :
    entsL cfg (.cons n (.file f) rest) rel =
      (match fileL cfg f (rel ++ [n]), entsL cfg rest rel with
       | .error e, (fe, de, w) => (e :: fe, de, w)
       | .ok lk, (fe, de, w) => (fe, de, lk :: w)) := rfl

/-- Unfolding of the linker's entry processing on a non-file,
non-directory entry. -/
theorem entsL_cons_other_eq (cfg : Config) (n : String)
    (rest : FEntries LFile) (rel : List String) :
    entsL cfg (.cons n .other rest) rel = entsL cfg rest rel := rfl

/-- Unfolding of the linker's entry processing on a subdirectory
entry. -/
theorem entsL_cons_node_eq (cfg : Config) (n : String) (c l : Bool)
    (es rest : FEntries LFile) (rel : List String) :
    entsL cfg (.cons n (.node c l es) rest) rel =
      (match dirL cfg (.node c l es) (rel ++ [n]), entsL cfg rest rel with
       | (errs, w1), (fe, de, w2) => (fe, errs ++ de, w1 ++ w2)) := rfl

/-- Linker entry processing distributes over concatenation of entry
lists. -/
theorem entsL_append (cfg : Config) (e₂ : FEntries LFile) (rel : List String)
    (a₂ b₂ : List LErr) (c₂ : List Link)
    (h₂ : entsL cfg e₂ rel = (a₂, b₂, c₂)) :
    ∀ e₁ (a₁ b₁ : List LErr) (c₁ : List Link),
      entsL cfg e₁ rel = (a₁, b₁, c₁) →
      entsL cfg (e₁.append e₂) rel = (a₁ ++ a₂, b₁ ++ b₂, c₁ ++ c₂) := by
  refine @fentriesInd LFile (fun _ => True)
    (fun e₁ => ∀ (a₁ b₁ : List LErr) (c₁ : List Link),
      entsL cfg e₁ rel = (a₁, b₁, c₁) →
      entsL cfg (e₁.append e₂) rel = (a₁ ++ a₂, b₁ ++ b₂, c₁ ++ c₂))
    (fun _ => trivial) trivial (fun _ _ _ _ => trivial) ?_ ?_
  · intro a₁ b₁ c₁ h₁
    rw [show entsL cfg .nil rel = ([], [], []) from rfl] at h₁
    simp only [Prod.mk.injEq] at h₁
    obtain ⟨h3, h4, h5⟩ := h₁
    subst h3; subst h4; subst h5
    simpa [FEntries.append] using h₂
  · intro n t rest _ ih a₁ b₁ c₁ h₁
    have happ : FEntries.append (.cons n t rest) e₂ = .cons n t (rest.append e₂) := rfl
    rw [happ]
    cases t with
    | file f =>
      rcases hr : entsL cfg rest rel with ⟨fe, de, w⟩
      have ih2 := ih fe de w hr
      cases hf : fileL cfg f (rel ++ [n]) with
      | error er =>
        rw [entsL_cons_file_eq, hf, hr] at h₁
        simp only [Prod.mk.injEq] at h₁
        obtain ⟨h3, h4, h5⟩ := h₁
        subst h3; subst h4; subst h5
        rw [entsL_cons_file_eq, hf, ih2]
        simp
      | ok lk =>
        rw [entsL_cons_file_eq, hf, hr] at h₁
        simp only [Prod.mk.injEq] at h₁
        obtain ⟨h3, h4, h5⟩ := h₁
        subst h3; subst h4; subst h5
        rw [entsL_cons_file_eq, hf, ih2]
        simp
    | other =>
      rw [entsL_cons_other_eq] at h₁
      rw [entsL_cons_other_eq]
      exact ih a₁ b₁ c₁ h₁
    | node c l es =>
      rcases hd : dirL cfg (.node c l es) (rel ++ [n]) with ⟨errs, w1⟩
      rcases hr : entsL cfg rest rel with ⟨fe, de, w2⟩
      have ih2 := ih fe de w2 hr
      rw [entsL_cons_node_eq, hd, hr] at h₁
      simp only [Prod.mk.injEq] at h₁
      obtain ⟨h3, h4, h5⟩ := h₁
      subst h3; subst h4; subst h5
      rw [entsL_cons_node_eq, hd, ih2]
      simp

/-- Unfolding of the peeker's entry processing on a file entry. -/
theorem entsP_cons_file_eq (eng : Engine) (cfg : Config) (n : String) (f : TFile)
    (rest : FEntries TFile) (rel : List String) :
    entsP eng cfg (.cons n (.file f) rest) rel =
      (match fileP eng cfg f (rel ++ [n]), entsP eng cfg rest rel with
       | .error e, (fe, de, fv, dv) => (e :: fe, de, fv, dv)
       | .ok vs, (fe, de, fv, dv) => (fe, de, vs ++ fv, dv)) := rfl

/-- Unfolding of the peeker's entry processing on a non-file,
non-directory entry. -/
theorem entsP_cons_other_eq (eng : Engine) (cfg : Config) (n : String)
    (rest : FEntries TFile) (rel : List String) :
    entsP eng cfg (.cons n .other rest) rel = entsP eng cfg rest rel := rfl

/-- Unfolding of the peeker's entry processing on a subdirectory
entry. -/
theorem entsP_cons_node_eq (eng : Engine) (cfg : Config) (n : String) (c l : Bool)
    (es rest : FEntries TFile) (rel : List String) :
    entsP eng cfg (.cons n (.node c l es) rest) rel =
      (match dirP eng cfg (.node c l es) (rel ++ [n]), entsP eng cfg rest rel with
       | .error errs, (fe, de, fv, dv) => (fe, errs ++ de, fv, dv)
       | .ok vs, (fe, de, fv, dv) => (fe, de, fv, vs ++ dv)) := rfl

/-- Peeker entry processing distributes over concatenation of entry
lists. -/
theorem entsP_append (eng : Engine) (cfg : Config) (e₂ : FEntries TFile)
    (rel : List String) (a₂ b₂ : List LErr) (v₂ w₂ : List String)
    (h₂ : entsP eng cfg e₂ rel = (a₂, b₂, v₂, w₂)) :
    ∀ e₁ (a₁ b₁ : List LErr) (v₁ w₁ : List String),
      entsP eng cfg e₁ rel = (a₁, b₁, v₁, w₁) →
      entsP eng cfg (e₁.append e₂) rel = (a₁ ++ a₂, b₁ ++ b₂, v₁ ++ v₂, w₁ ++ w₂) := by
  refine @fentriesInd TFile (fun _ => True)
    (fun e₁ => ∀ (a₁ b₁ : List LErr) (v₁ w₁ : List String),
      entsP eng cfg e₁ rel = (a₁, b₁, v₁, w₁) →
      entsP eng cfg (e₁.append e₂) rel = (a₁ ++ a₂, b₁ ++ b₂, v₁ ++ v₂, w₁ ++ w₂))
    (fun _ => trivial) trivial (fun _ _ _ _ => trivial) ?_ ?_
  · intro a₁ b₁ v₁ w₁ h₁
    rw [show entsP eng cfg .nil rel = ([], [], [], []) from rfl] at h₁
    simp only [Prod.mk.injEq] at h₁
    obtain ⟨h3, h4, h5, h6⟩ := h₁
    subst h3; subst h4; subst h5; subst h6
    simpa [FEntries.append] using h₂
  · intro n t rest _ ih a₁ b₁ v₁ w₁ h₁
    have happ : FEntries.append (.cons n t rest) e₂ = .cons n t (rest.append e₂) := rfl
    rw [happ]
    cases t with
    | file f =>
      rcases hr : entsP eng cfg rest rel with ⟨fe, de, fv, dv⟩
      have ih2 := ih fe de fv dv hr
      cases hf : fileP eng cfg f (rel ++ [n]) with
      | error er =>
        rw [entsP_cons_file_eq, hf, hr] at h₁
        simp only [Prod.mk.injEq] at h₁
        obtain ⟨h3, h4, h5, h6⟩ := h₁
        subst h3; subst h4; subst h5; subst h6
        rw [entsP_cons_file_eq, hf, ih2]
        simp
      | ok vs =>
        rw [entsP_cons_file_eq, hf, hr] at h₁
        simp only [Prod.mk.injEq] at h₁
        obtain ⟨h3, h4, h5, h6⟩ := h₁
        subst h3; subst h4; subst h5; subst h6
        rw [entsP_cons_file_eq, hf, ih2]
        simp
    | other =>
      rw [entsP_cons_other_eq] at h₁
      rw [entsP_cons_other_eq]
      exact ih a₁ b₁ v₁ w₁ h₁
    | node c l es =>
      rcases hr : entsP eng cfg rest rel with ⟨fe, de, fv, dv⟩
      have ih2 := ih fe de fv dv hr
      cases hd : dirP eng cfg (.node c l es) (rel ++ [n]) with
      | error errs =>
        rw [entsP_cons_node_eq, hd, hr] at h₁
        simp only [Prod.mk.injEq] at h₁
        obtain ⟨h3, h4, h5, h6⟩ := h₁
        subst h3; subst h4; subst h5; subst h6
        rw [entsP_cons_node_eq, hd, ih2]
        simp
      | ok vs =>
        rw [entsP_cons_node_eq, hd, hr] at h₁
        simp only [Prod.mk.injEq] at h₁
        obtain ⟨h3, h4, h5, h6⟩ := h₁
        subst h3; subst h4; subst h5; subst h6
        rw [entsP_cons_node_eq, hd, ih2]
        simp

/-- Unfolding of the linker's directory walk on a healthy directory. -/
theorem dirL_node_ok_eq (cfg : Config) (es : FEntries LFile) (rel : List String) :
    dirL cfg (.node true true es) rel =
      (match entsL cfg es rel with
       | (fe, de, w) => (fe ++ de, w)) := rfl

/-- C2: in each of the three walkers, the outcome of one entry is
computed independently of its siblings: a directory whose entries split
as two sibling groups around one middle entry returns exactly the
concatenation of the three groups' file errors, then the concatenation
of their subdirectory error collections, and the union of their
successful results — so a failure of one file action or one
subdirectory's traversal never prevents the processing of siblings, and
every independent failure appears as its own located error. -/
theorem claim_C2
    (eng : Engine) (env : Env) (cfg : Config) (rel : List String)
    (e₁ e₂ : FEntries TFile) (n : String) (t : FTree TFile)
    {a₁ b₁ : List LErr} {c₁ : List Written} {am bm : List LErr} {cm : List Written}
    {a₂ b₂ : List LErr} {c₂ : List Written}
    (lcfg : Config) (lrel : List String) (le₁ le₂ : FEntries LFile)
    (ln : String) (lt : FTree LFile)
    {la₁ lb₁ : List LErr} {lc₁ : List Link} {lam lbm : List LErr} {lcm : List Link}
    {la₂ lb₂ : List LErr} {lc₂ : List Link}
    (peng : Engine) (pcfg : Config) (prel : List String)
    (pe₁ pe₂ : FEntries TFile) (pn : String) (pt : FTree TFile)
    {pa₁ pb₁ : List LErr} {pv₁ pw₁ : List String} {pam pbm : List LErr}
    {pvm pwm : List String} {pa₂ pb₂ : List LErr} {pv₂ pw₂ : List String}
    (h₁ : entsB eng env cfg e₁ rel = some (a₁, b₁, c₁))
    (hm : entsB eng env cfg (.cons n t .nil) rel = some (am, bm, cm))
    (h₂ : entsB eng env cfg e₂ rel = some (a₂, b₂, c₂))
    (hl₁ : entsL lcfg le₁ lrel = (la₁, lb₁, lc₁))
    (hlm : entsL lcfg (.cons ln lt .nil) lrel = (lam, lbm, lcm))
    (hl₂ : entsL lcfg le₂ lrel = (la₂, lb₂, lc₂))
    (hp₁ : entsP peng pcfg pe₁ prel = (pa₁, pb₁, pv₁, pw₁))
    (hpm : entsP peng pcfg (.cons pn pt .nil) prel = (pam, pbm, pvm, pwm))
    (hp₂ : entsP peng pcfg pe₂ prel = (pa₂, pb₂, pv₂, pw₂)) :
    dirB eng env cfg (.node true true (e₁.append (.cons n t e₂))) rel =
      some ((a₁ ++ am ++ a₂) ++ (b₁ ++ bm ++ b₂), c₁ ++ cm ++ c₂) ∧
    dirL lcfg (.node true true (le₁.append (.cons ln lt le₂))) lrel =
      ((la₁ ++ lam ++ la₂) ++ (lb₁ ++ lbm ++ lb₂), lc₁ ++ lcm ++ lc₂) ∧
    entsP peng pcfg (pe₁.append (.cons pn pt pe₂)) prel =
      (pa₁ ++ pam ++ pa₂, pb₁ ++ pbm ++ pb₂, pv₁ ++ pvm ++ pv₂, pw₁ ++ pwm ++ pw₂) := by
  refine ⟨?_, ?_, ?_⟩
  · have hmid : entsB eng env cfg (.cons n t e₂) rel =
        some (am ++ a₂, bm ++ b₂, cm ++ c₂) :=
      entsB_append eng env cfg e₂ rel a₂ b₂ c₂ h₂ (.cons n t .nil) am bm cm hm
    have hall := entsB_append eng env cfg (.cons n t e₂) rel (am ++ a₂) (bm ++ b₂)
      (cm ++ c₂) hmid e₁ a₁ b₁ c₁ h₁
    rw [dirB_node_ok_eq, hall]
    simp [List.append_assoc]
  · have hmid : entsL lcfg (.cons ln lt le₂) lrel =
        (lam ++ la₂, lbm ++ lb₂, lcm ++ lc₂) :=
      entsL_append lcfg le₂ lrel la₂ lb₂ lc₂ hl₂ (.cons ln lt .nil) lam lbm lcm hlm
    have hall := entsL_append lcfg (.cons ln lt le₂) lrel (lam ++ la₂) (lbm ++ lb₂)
      (lcm ++ lc₂) hmid le₁ la₁ lb₁ lc₁ hl₁
    rw [dirL_node_ok_eq, hall]
    simp [List.append_assoc]
  · have hmid : entsP peng pcfg (.cons pn pt pe₂) prel =
        (pam ++ pa₂, pbm ++ pb₂, pvm ++ pv₂, pwm ++ pw₂) :=
      entsP_append peng pcfg pe₂ prel pa₂ pb₂ pv₂ pw₂ hp₂ (.cons pn pt .nil)
        pam pbm pvm pwm hpm
    have hall := entsP_append peng pcfg (.cons pn pt pe₂) prel (pam ++ pa₂)
      (pbm ++ pb₂) (pvm ++ pv₂) (pwm ++ pw₂) hmid pe₁ pa₁ pb₁ pv₁ pw₁ hp₁
    rw [hall]
    simp [List.append_assoc]

/-- C2 witness: a template tree with nine healthy files and one
unreadable template file yields exactly one located error and nine
files written; analogous one-failure instances for the linker and the
peeker. -/
theorem claim_C2_witness :
    dirB engOkH [] cfgW
      (.node true true (entsHealthy1.append (.cons "e.tpl" (.file tfBadRead) entsHealthy2))) [] =
      some ([(⟨false, ["tree", "e.tpl"]⟩, EKind.io)],
        [(["f1"], [1]), (["f2"], [2]), (["f3"], [3]), (["f4"], [4]),
         (["f6"], [6]), (["f7"], [7]), (["f8"], [8]), (["f9"], [9]), (["f10"], [10])]) ∧
    dirL cfgW
      (.node true true ((FEntries.cons "g1" (.file lfOk) .nil).append
        (.cons "g2" (.file ⟨false, true⟩) (.cons "g3" (.file lfOk) .nil)))) [] =
      ([(⟨false, ["links", "g2"]⟩, EKind.io)],
       [(["g1"], ⟨false, ["build", "g1"]⟩), (["g3"], ⟨false, ["build", "g3"]⟩)]) ∧
    entsP engVars cfgW
      ((FEntries.cons "x.tpl" (.file (tfOk "t1" [])) .nil).append
        (.cons "bad.tpl" (.file tfBadRead) (.cons "y.tpl" (.file (tfOk "t2" [])) .nil))) [] =
      ([(⟨false, ["tree", "bad.tpl"]⟩, EKind.io)], [], ["a", "a", "b"], []) := by
  have h := claim_C2 engOkH [] cfgW [] entsHealthy1 entsHealthy2 "e.tpl" (.file tfBadRead)
    cfgW [] (.cons "g1" (.file lfOk) .nil) (.cons "g3" (.file lfOk) .nil) "g2"
    (.file ⟨false, true⟩) engVars cfgW [] (.cons "x.tpl" (.file (tfOk "t1" [])) .nil)
    (.cons "y.tpl" (.file (tfOk "t2" [])) .nil) "bad.tpl" (.file tfBadRead)
    rfl rfl rfl rfl rfl rfl rfl rfl rfl
  exact ⟨by simpa using h.1, by simpa using h.2.1, by simpa using h.2.2⟩

/-- A successful peeker file action returns exactly the spec-side
contribution of that file: nothing for a non-suffixed name, the parsed
template's variables otherwise. -/
theorem fileP_ok_spec (eng : Engine) (cfg : Config) (f : TFile) (rel : List String)
    (n : String) (vs : List String)
    (h : fileP eng cfg f (rel ++ [n]) = .ok vs) :
    vs = (if extName n = some "tpl" then
      match eng.parse f.text with
      | .ok tpl => tpl.vars
      | .error _ => [] else []) := by
  by_cases hx : extName n = some "tpl"
  · cases hr : f.readable with
    | false => simp [fileP, joinRel_ext, hx, hr] at h
    | true =>
      cases hp : eng.parse f.text with
      | error u => simp [fileP, joinRel_ext, hx, hr, hp] at h
      | ok tpl =>
        simp [fileP, joinRel_ext, hx, hr, hp] at h
        simp [hx, hp, ← h]
  · simp [fileP, joinRel_ext, hx] at h
    simp [hx, ← h]

/-- A failing peeker directory call never reports an empty error
collection. -/
theorem dirP_error_ne_nil (eng : Engine) (cfg : Config) (t : FTree TFile)
    (rel : List String) (errs : List LErr) (h : dirP eng cfg t rel = .error errs) :
    errs ≠ [] := by
  cases t with
  | file f => rw [show dirP eng cfg (.file f) rel = .ok [] from rfl] at h; simp at h
  | other => rw [show dirP eng cfg .other rel = .ok [] from rfl] at h; simp at h
  | node c l es =>
    cases l with
    | false =>
      rw [show dirP eng cfg (.node c false es) rel =
        .error [(cfg.template_dir.joinRel rel, .io)] from rfl] at h
      simp only [Except.error.injEq] at h
      subst h
      simp
    | true =>
      rcases hq : entsP eng cfg es rel with ⟨fe, de, fv, dv⟩
      rw [show dirP eng cfg (.node c true es) rel =
        (match entsP eng cfg es rel with
         | (fe, de, fv, dv) =>
           if fe ++ de = [] then .ok (dedupConsec (sortStrings (fv ++ dv)))
           else .error (fe ++ de)) from rfl, hq] at h
      by_cases hemp : fe ++ de = []
      · simp [hemp] at h
      · simp only [hemp, if_false, Except.error.injEq] at h
        subst h
        exact hemp

/-- C6 (amended): every successful peeker directory call — the
recursive calls included, since sorting and deduplication happen at
every directory level, not only at the top — returns a
lexicographically sorted, duplicate-free list containing exactly the
variables referenced by the template-suffixed files of its subtree;
files without the template suffix contribute nothing. -/
theorem claim_C6 (eng : Engine) (cfg : Config) (t : FTree TFile) :
    ∀ rel vs, dirP eng cfg t rel = .ok vs →
      vs.Sorted (fun a b => strLe a b = true) ∧ vs.Nodup ∧
      (∀ v, v ∈ vs ↔ v ∈ specRefVars eng t) := by
  refine @ftreeInd TFile
    (fun t => ∀ rel vs, dirP eng cfg t rel = .ok vs →
      vs.Sorted (fun a b => strLe a b = true) ∧ vs.Nodup ∧
      (∀ v, v ∈ vs ↔ v ∈ specRefVars eng t))
    (fun es => ∀ rel fe de fv dv, entsP eng cfg es rel = (fe, de, fv, dv) →
      fe = [] → de = [] →
      (∀ v, v ∈ fv ++ dv ↔ v ∈ specRefEntryVars eng es))
    ?_ ?_ ?_ ?_ ?_ t
  · intro f rel vs h
    rw [show dirP eng cfg (.file f) rel = .ok [] from rfl] at h
    simp only [Except.ok.injEq] at h
    subst h
    simp [specRefVars]
  · intro rel vs h
    rw [show dirP eng cfg .other rel = .ok [] from rfl] at h
    simp only [Except.ok.injEq] at h
    subst h
    simp [specRefVars]
  · intro c l es ihq rel vs h
    cases l with
    | false =>
      rw [show dirP eng cfg (.node c false es) rel =
        .error [(cfg.template_dir.joinRel rel, .io)] from rfl] at h
      simp at h
    | true =>
      rcases hq : entsP eng cfg es rel with ⟨fe, de, fv, dv⟩
      rw [show dirP eng cfg (.node c true es) rel =
        (match entsP eng cfg es rel with
         | (fe, de, fv, dv) =>
           if fe ++ de = [] then .ok (dedupConsec (sortStrings (fv ++ dv)))
           else .error (fe ++ de)) from rfl, hq] at h
      by_cases hemp : fe ++ de = []
      · obtain ⟨hfe, hde⟩ := List.append_eq_nil.mp hemp
        simp only [hemp, if_true, Except.ok.injEq, if_pos rfl] at h
        subst h
        letI : IsTotal String (fun a b => strLe a b = true) := ⟨strLe_total⟩
        letI : IsTrans String (fun a b => strLe a b = true) := ⟨strLe_trans⟩
        have hsorted : (sortStrings (fv ++ dv)).Sorted (fun a b => strLe a b = true) :=
          List.sorted_insertionSort _ _
        refine ⟨dedupConsec_sorted hsorted, dedupConsec_nodup _ hsorted, ?_⟩
        intro v
        rw [mem_dedupConsec]
        have hperm : v ∈ sortStrings (fv ++ dv) ↔ v ∈ fv ++ dv :=
          (List.perm_insertionSort _ _).mem_iff
        rw [hperm]
        exact ihq rel fe de fv dv hq hfe hde v
      · simp [hemp] at h
  · intro rel fe de fv dv h hfe hde v
    rw [show entsP eng cfg .nil rel = ([], [], [], []) from rfl] at h
    simp only [Prod.mk.injEq] at h
    obtain ⟨h1, h2, h3, h4⟩ := h
    subst h3; subst h4
    simp [specRefEntryVars]
  · intro n t rest ihp ihq rel fe de fv dv h hfe hde v
    cases t with
    | file f =>
      rcases hr : entsP eng cfg rest rel with ⟨fe', de', fv', dv'⟩
      cases hf : fileP eng cfg f (rel ++ [n]) with
      | error er =>
        rw [entsP_cons_file_eq, hf, hr] at h
        simp only [Prod.mk.injEq] at h
        obtain ⟨h1, h2, h3, h4⟩ := h
        subst h1
        simp at hfe
      | ok vs' =>
        rw [entsP_cons_file_eq, hf, hr] at h
        simp only [Prod.mk.injEq] at h
        obtain ⟨h1, h2, h3, h4⟩ := h
        subst h1; subst h2; subst h3; subst h4
        have hspec := fileP_ok_spec eng cfg f rel n vs' hf
        have ihv := ihq rel fe' de' fv' dv' hr hfe hde v
        rw [show specRefEntryVars eng (.cons n (.file f) rest) =
          (if extName n = some "tpl" then
            match eng.parse f.text with
            | .ok tpl => tpl.vars
            | .error _ => [] else []) ++ specRefEntryVars eng rest from rfl]
        simp only [List.mem_append] at ihv ⊢
        rw [or_assoc]
        exact or_congr (by rw [hspec]) ihv
    | other =>
      rw [entsP_cons_other_eq] at h
      have ihv := ihq rel fe de fv dv h hfe hde v
      rw [show specRefEntryVars eng (.cons n .other rest) =
        [] ++ specRefEntryVars eng rest from rfl]
      simpa using ihv
    | node c l es =>
      rcases hr : entsP eng cfg rest rel with ⟨fe', de', fv', dv'⟩
      cases hd : dirP eng cfg (.node c l es) (rel ++ [n]) with
      | error errs =>
        rw [entsP_cons_node_eq, hd, hr] at h
        simp only [Prod.mk.injEq] at h
        obtain ⟨h1, h2, h3, h4⟩ := h
        subst h2
        obtain ⟨herrs, _⟩ := List.append_eq_nil.mp hde
        exact absurd herrs (dirP_error_ne_nil eng cfg _ _ _ hd)
      | ok cvs =>
        rw [entsP_cons_node_eq, hd, hr] at h
        simp only [Prod.mk.injEq] at h
        obtain ⟨h1, h2, h3, h4⟩ := h
        subst h1; subst h2; subst h3; subst h4
        have hchild := (ihp (rel ++ [n]) cvs hd).2.2 v
        have ihv := ihq rel fe' de' fv' dv' hr hfe hde v
        rw [show specRefEntryVars eng (.cons n (.node c l es) rest) =
          specRefVars eng (.node c l es) ++ specRefEntryVars eng rest from rfl]
        simp only [List.mem_append] at ihv ⊢
        tauto

/-- C6 counterexample: an inner (non-top-level) directory call already
returns its variables sorted and deduplicated — `["a", "b"]` instead of
the concatenation-order `["b", "a", "a"]` — so sorting and
deduplication are not performed exactly once at the top level. -/
theorem claim_C6_cex :
    dirP engVars cfgW treePeekInner ["sub"] = .ok ["a", "b"] ∧
    specRefVars engVars treePeekInner = ["b", "a", "a"] ∧
    (["a", "b"] : List String) ≠ ["b", "a", "a"] := by
  refine ⟨rfl, rfl, ?_⟩
  decide

/-- C6 witness: two templates referencing `a` and `a, b` yield exactly
the sorted, deduplicated report containing `a` and `b` once each. -/
theorem claim_C6_witness :
    List.Sorted (fun a b => strLe a b = true) ["a", "b"] ∧
    (["a", "b"] : List String).Nodup ∧
    (∀ v, v ∈ (["a", "b"] : List String) ↔ v ∈ specRefVars engVars treePeek) :=
  claim_C6 engVars cfgW treePeek [] ["a", "b"] rfl

/-- A successful builder file action lands at the spec-side output path
and carries the spec-side content: rendered bytes at the
suffix-stripped path for a template-suffixed name, the verbatim raw
bytes at the unchanged path otherwise. -/
theorem fileB_ok_spec (eng : Engine) (env : Env) (cfg : Config) (f : TFile)
    (rel : List String) (n : String) (p : List String) (b : List Nat)
    (h : fileB eng env cfg f (rel ++ [n]) = some (.ok (p, b))) :
    p = outNameOf (rel ++ [n]) ∧ buildsFrom eng env (rel ++ [n]) f p b := by
  by_cases hx : extName n = some "tpl"
  · have hrt : relIsTpl (rel ++ [n]) = true := by
      rw [relIsTpl_concat]; simp [hx]
    cases hr : f.readable with
    | false => simp [fileB, joinRel_ext, hx, hr] at h
    | true =>
      cases hm : f.metaOk with
      | false => simp [fileB, joinRel_ext, hx, hr, hm] at h
      | true =>
        cases hp : eng.parse f.text with
        | error u => simp [fileB, joinRel_ext, hx, hr, hm, hp] at h
        | ok tpl =>
          cases hrd : tpl.render env with
          | error u => simp [fileB, joinRel_ext, hx, hr, hm, hp, hrd] at h
          | ok rendered =>
            cases hv : isValidUtf8 rendered with
            | false => simp [fileB, joinRel_ext, hx, hr, hm, hp, hrd, hv] at h
            | true =>
              cases hc : f.createOk with
              | false => simp [fileB, joinRel_ext, hx, hr, hm, hp, hrd, hv, hc] at h
              | true =>
                cases hw : f.writeOk with
                | false => simp [fileB, joinRel_ext, hx, hr, hm, hp, hrd, hv, hc, hw] at h
                | true =>
                  cases hs : f.setPermsOk with
                  | false =>
                    simp [fileB, joinRel_ext, hx, hr, hm, hp, hrd, hv, hc, hw, hs] at h
                  | true =>
                    simp [fileB, joinRel_ext, hx, hr, hm, hp, hrd, hv, hc, hw, hs] at h
                    obtain ⟨h1, h2⟩ := h
                    subst h1; subst h2
                    refine ⟨by simp [outNameOf, hrt], Or.inl ⟨hrt, rfl, tpl, hp, hrd⟩⟩
  · have hrt : relIsTpl (rel ++ [n]) = false := by
      rw [relIsTpl_concat]; simp [hx]
    cases hc : f.copyOk with
    | false => simp [fileB, joinRel_ext, hx, hc] at h
    | true =>
      simp [fileB, joinRel_ext, hx, hc] at h
      obtain ⟨h1, h2⟩ := h
      subst h1; subst h2
      exact ⟨by simp [outNameOf, hrt], Or.inr ⟨hrt, rfl, rfl⟩⟩

/-- A builder directory walk that returns with no errors has written
exactly the spec-side relative paths (template suffixes stripped, all
other names unchanged, in listing order), and every file written stems
from a template-tree file with the spec-side content. -/
theorem dirB_ok_spec (eng : Engine) (env : Env) (cfg : Config) (t : FTree TFile) :
    ∀ rel w, dirB eng env cfg t rel = some ([], w) →
      w.map Prod.fst = specBuiltPaths t rel ∧
      ∀ p b, (p, b) ∈ w → ∃ q f, (q, f) ∈ treeFiles t rel ∧ buildsFrom eng env q f p b := by
  refine @ftreeInd TFile
    (fun t => ∀ rel w, dirB eng env cfg t rel = some ([], w) →
      w.map Prod.fst = specBuiltPaths t rel ∧
      ∀ p b, (p, b) ∈ w → ∃ q f, (q, f) ∈ treeFiles t rel ∧ buildsFrom eng env q f p b)
    (fun es => ∀ rel fe de w, entsB eng env cfg es rel = some (fe, de, w) →
      fe = [] → de = [] →
      w.map Prod.fst = specEntryPaths es rel ∧
      ∀ p b, (p, b) ∈ w → ∃ q f, (q, f) ∈ entryFiles es rel ∧ buildsFrom eng env q f p b)
    ?_ ?_ ?_ ?_ ?_ t
  · intro f rel w h
    rw [show dirB eng env cfg (.file f) rel = some ([], []) from rfl] at h
    simp only [Option.some.injEq, Prod.mk.injEq] at h
    obtain ⟨h1, h2⟩ := h
    subst h2
    exact ⟨rfl, by simp⟩
  · intro rel w h
    rw [show dirB eng env cfg .other rel = some ([], []) from rfl] at h
    simp only [Option.some.injEq, Prod.mk.injEq] at h
    obtain ⟨h1, h2⟩ := h
    subst h2
    exact ⟨rfl, by simp⟩
  · intro c l es ihq rel w h
    cases c with
    | false =>
      rw [show dirB eng env cfg (.node false l es) rel =
        some ([(cfg.build_dir.joinRel rel, .io)], []) from rfl] at h
      simp at h
    | true =>
      cases l with
      | false =>
        rw [show dirB eng env cfg (.node true false es) rel =
          some ([(cfg.template_dir.joinRel rel, .io)], []) from rfl] at h
        simp at h
      | true =>
        cases hq : entsB eng env cfg es rel with
        | none => rw [dirB_node_ok_eq, hq] at h; simp at h
        | some res =>
          obtain ⟨fe, de, w'⟩ := res
          rw [dirB_node_ok_eq, hq] at h
          simp only [Option.some.injEq, Prod.mk.injEq] at h
          obtain ⟨h1, h2⟩ := h
          subst h2
          obtain ⟨hfe, hde⟩ := List.append_eq_nil.mp h1
          exact ihq rel fe de w' hq hfe hde
  · intro rel fe de w h hfe hde
    rw [show entsB eng env cfg .nil rel = some ([], [], []) from rfl] at h
    simp only [Option.some.injEq, Prod.mk.injEq] at h
    obtain ⟨h1, h2, h3⟩ := h
    subst h3
    exact ⟨rfl, by simp⟩
  · intro n t rest ihp ihq rel fe de w h hfe hde
    cases t with
    | file f =>
      cases hf : fileB eng env cfg f (rel ++ [n]) with
      | none => rw [entsB_cons_file_eq, hf] at h; simp at h
      | some r =>
        cases hr : entsB eng env cfg rest rel with
        | none => rw [entsB_cons_file_eq, hf, hr] at h; cases r <;> simp at h
        | some res =>
          obtain ⟨fe', de', w'⟩ := res
          cases r with
          | error er =>
            rw [entsB_cons_file_eq, hf, hr] at h
            simp only [Option.some.injEq, Prod.mk.injEq] at h
            obtain ⟨h1, h2, h3⟩ := h
            subst hfe
            simp at h1
          | ok wr =>
            rw [entsB_cons_file_eq, hf, hr] at h
            simp only [Option.some.injEq, Prod.mk.injEq] at h
            obtain ⟨h1, h2, h3⟩ := h
            subst h1; subst h2; subst h3
            obtain ⟨p₀, b₀⟩ := wr
            have hok := fileB_ok_spec eng env cfg f rel n p₀ b₀ hf
            have ihr := ihq rel fe' de' w' hr hfe hde
            constructor
            · rw [show specEntryPaths (.cons n (.file f) rest) rel =
                outNameOf (rel ++ [n]) :: specEntryPaths rest rel from rfl]
              simp only [List.map_cons]
              rw [ihr.1, hok.1]
            · intro p b hpb
              rw [show entryFiles (.cons n (.file f) rest) rel =
                (rel ++ [n], f) :: entryFiles rest rel from rfl]
              rcases List.mem_cons.mp hpb with heq | hmem
              · rw [Prod.mk.injEq] at heq
                obtain ⟨hp', hb'⟩ := heq
                subst hp'; subst hb'
                exact ⟨rel ++ [n], f, List.mem_cons_self _ _, hok.2⟩
              · obtain ⟨q, f', hqf, hbf⟩ := ihr.2 p b hmem
                exact ⟨q, f', List.mem_cons_of_mem _ hqf, hbf⟩
    | other =>
      rw [entsB_cons_other_eq] at h
      have ihr := ihq rel fe de w h hfe hde
      refine ⟨?_, ?_⟩
      · rw [show specEntryPaths (.cons n .other rest) rel =
          specEntryPaths rest rel from rfl]
        exact ihr.1
      · intro p b hpb
        rw [show entryFiles (.cons n .other rest) rel = entryFiles rest rel from rfl]
        exact ihr.2 p b hpb
    | node c l es =>
      cases hd : dirB eng env cfg (.node c l es) (rel ++ [n]) with
      | none => rw [entsB_cons_node_eq, hd] at h; simp at h
      | some res₁ =>
        obtain ⟨errs, w1⟩ := res₁
        cases hr : entsB eng env cfg rest rel with
        | none => rw [entsB_cons_node_eq, hd, hr] at h; simp at h
        | some res =>
          obtain ⟨fe', de', w2⟩ := res
          rw [entsB_cons_node_eq, hd, hr] at h
          simp only [Option.some.injEq, Prod.mk.injEq] at h
          obtain ⟨h1, h2, h3⟩ := h
          subst h1; subst h2; subst h3
          obtain ⟨herrs, hde'⟩ := List.append_eq_nil.mp hde
          subst herrs
          have hchild := ihp (rel ++ [n]) w1 hd
          have ihr := ihq rel fe' de' w2 hr hfe hde'
          constructor
          · rw [show specEntryPaths (.cons n (.node c l es) rest) rel =
              specBuiltPaths (.node c l es) (rel ++ [n]) ++ specEntryPaths rest rel from rfl]
            rw [List.map_append, hchild.1, ihr.1]
          · intro p b hpb
            rw [show entryFiles (.cons n (.node c l es) rest) rel =
              treeFiles (.node c l es) (rel ++ [n]) ++ entryFiles rest rel from rfl]
            rcases List.mem_append.mp hpb with hmem | hmem
            · obtain ⟨q, f', hqf, hbf⟩ := hchild.2 p b hmem
              exact ⟨q, f', List.mem_append.mpr (Or.inl hqf), hbf⟩
            · obtain ⟨q, f', hqf, hbf⟩ := ihr.2 p b hmem
              exact ⟨q, f', List.mem_append.mpr (Or.inr hqf), hbf⟩

/-- C1: after `build_tree` returns success, the relative paths of the
files written to the build tree are exactly the relative paths of the
regular files of the template tree with the template suffix stripped
from template-suffixed names, and each written file carries either the
successfully rendered content of its template source or the verbatim
bytes of its non-template source. -/
theorem claim_C1 (eng : Engine) (h u o : String) (vars : VarsFile) (cfg : Config)
    (t : FTree TFile) (w : List Written)
    (hrun : build_tree eng h u o vars cfg t = some ([], w)) :
    w.map Prod.fst = specBuiltPaths t [] ∧
    ∃ env, buildEnv h u o vars cfg.variables_path cfg.flags = .ok env ∧
      ∀ p b, (p, b) ∈ w → ∃ q f, (q, f) ∈ treeFiles t [] ∧ buildsFrom eng env q f p b := by
  cases he : buildEnv h u o vars cfg.variables_path cfg.flags with
  | error e =>
    rw [show build_tree eng h u o vars cfg t =
      (match buildEnv h u o vars cfg.variables_path cfg.flags with
       | .error e => some ([e], [])
       | .ok env => dirB eng env cfg t []) from rfl, he] at hrun
    simp at hrun
  | ok env =>
    rw [show build_tree eng h u o vars cfg t =
      (match buildEnv h u o vars cfg.variables_path cfg.flags with
       | .error e => some ([e], [])
       | .ok env => dirB eng env cfg t []) from rfl, he] at hrun
    have hd := dirB_ok_spec eng env cfg t [] w hrun
    exact ⟨hd.1, env, rfl, hd.2⟩

/-- C1 witness: a successful build of a tree with one template, one
static file and one subdirectory writes exactly the suffix-stripped
template, the static file and the subdirectory's file, with rendered
and copied contents respectively. -/
theorem claim_C1_witness :
    ([(["conf"], [104]), (["plain"], [1, 2]), (["sub", "inner"], [3])] : List Written).map
      Prod.fst = specBuiltPaths treeC1 [] ∧
    ∃ env, buildEnv "h" "u" "o" .unreadable cfgW.variables_path cfgW.flags = .ok env ∧
      ∀ p b, (p, b) ∈
        ([(["conf"], [104]), (["plain"], [1, 2]), (["sub", "inner"], [3])] : List Written) →
        ∃ q f, (q, f) ∈ treeFiles treeC1 [] ∧ buildsFrom engOkH env q f p b :=
  claim_C1 engOkH "h" "u" "o" .unreadable cfgW treeC1
    [(["conf"], [104]), (["plain"], [1, 2]), (["sub", "inner"], [3])] rfl
